import Mathlib

/-!
Shallow embedding of the GitHub metrics pipeline
(`scripts/collect_metrics.py` and `scripts/generate_dashboard.py`).

The collection phase is modelled over pure data: a `Repo` carries the
commit list and language byte mapping that the remote API would deliver
for it.  The remote API itself is out of scope of the source
(an external collaborator); its commit query is modelled from the spec
as an author filter over a half-open time window `[since, until)`.
Instants are integers counting seconds, a day is 86400 seconds, and
`replace(hour=0, minute=0, second=0, microsecond=0)` is flooring to a
multiple of 86400 (`Int.fdiv`, matching Python floor semantics for all
instants).  Python dicts are modelled as insertion-ordered association
lists (`defaultdict(int)` / plain dict assignment become upsert
operations), and Python's `sorted(key=k, reverse=True)`, which is
specified as a stable sort, is modelled by `List.insertionSort` with
the relation `fun a b => k b ≤ k a`, which Mathlib proves sorted,
a permutation, and stable.
-/

namespace GhMetrics

/-- The stats tuple accumulated by `get_commit_stats`
(`collect_metrics.py` lines 63-68). -/
structure CommitStats where
  commits : Nat
  additions : Nat
  deletions : Nat
  files_changed : Nat
deriving DecidableEq, Repr

/-- A commit as delivered by the API: author login, timestamp, the
optional line stats (`commit.stats`, additions and deletions; `none`
when unavailable) and the optional file count (`commit.files`; `none`
covers both an unavailable and an empty file list, which contribute 0
alike). -/
structure Commit where
  author : String
  date : Int
  stats : Option (Nat × Nat)
  files : Option Nat
deriving DecidableEq, Repr

/-- A repository together with the data the remote API delivers for it:
its metadata, its full commit list and its language byte mapping
(`repo.get_languages()`; a failed language query is the empty list,
per `get_language_stats`). -/
structure Repo where
  name : String
  full_name : String
  url : String
  description : Option String
  stars : Nat
  forks : Nat
  commits : List Commit
  languages : List (String × Nat)
deriving DecidableEq, Repr

/-- All-zero stats, the initial accumulator of `get_commit_stats`
(lines 63-68). -/
def zeroStats : CommitStats := ⟨0, 0, 0, 0⟩

/-- One loop iteration of `get_commit_stats` (lines 72-78): the commit
count is incremented, additions/deletions are added when
`commit.stats` is available (else 0), and the file count is added when
`commit.files` is available and non-empty (else 0). -/
def addCommit (s : CommitStats) (c : Commit) : CommitStats :=
  { commits := s.commits + 1
    additions := s.additions + (match c.stats with | some st => st.1 | none => 0)
    deletions := s.deletions + (match c.stats with | some st => st.2 | none => 0)
    files_changed := s.files_changed + (match c.files with | some k => k | none => 0) }

/-- `get_commit_stats` (lines 61-83), as a fold over the commits the
query actually delivered before terminating or failing.  The
`try/except` swallows every query failure, so on a failure partway the
function returns the stats accumulated over the delivered prefix; a
failing query that delivered nothing yields `zeroStats`. -/
def get_commit_stats (delivered : List Commit) : CommitStats :=
  delivered.foldl addCommit zeroStats

/-- Modelled from the spec: the remote commit query
`repo.get_commits(author=author, since=since, until=until)` returns the
commits by the given author inside the half-open window
`[since, until)` (spec §4.2). -/
def queryCommits (commits : List Commit) (author : String) (since until_ : Int) :
    List Commit :=
  commits.filter (fun c => decide (c.author = author ∧ since ≤ c.date ∧ c.date < until_))

/-- Whether an instant lies in a half-open window `[since, until)`,
the membership test of `queryCommits`. -/
def inWindow (since until_ t : Int) : Bool :=
  decide (since ≤ t ∧ t < until_)

/-- Midnight (00:00:00) of the calendar day containing `t`:
`datetime.replace(hour=0, minute=0, second=0, microsecond=0)`. -/
def midnightOf (t : Int) : Int := 86400 * (t.fdiv 86400)

/-- The five named periods, in the iteration order of the `periods`
dict (lines 118-124). -/
inductive Period | today | week | month | quarter | year
deriving DecidableEq, Repr

/-- The `periods` dict keys in iteration order. -/
def periodList : List Period := [.today, .week, .month, .quarter, .year]

/-- The `(since, until)` window of each named period (lines 118-124):
`today` runs from the previous calendar day's midnight
(`(now - timedelta(days=1)).replace(hour=0, ...)`) to `now`; the other
periods are fixed offsets from `now`. -/
def periodWindow (now : Int) : Period → Int × Int
  | .today => (midnightOf (now - 86400), now)
  | .week => (now - 7 * 86400, now)
  | .month => (now - 30 * 86400, now)
  | .quarter => (now - 90 * 86400, now)
  | .year => (now - 365 * 86400, now)

/-- The stats recorded for one repository and one period
(lines 158-160): `get_commit_stats(repo, GH_USERNAME, since, until)`. -/
def periodStats (now : Int) (username : String) (r : Repo) (p : Period) : CommitStats :=
  let w := periodWindow now p
  get_commit_stats (queryCommits r.commits username w.1 w.2)

/-- `has_activity` (lines 155-167): at least one period recorded at
least one commit. -/
def hasActivity (now : Int) (username : String) (r : Repo) : Bool :=
  periodList.any (fun p => decide (0 < (periodStats now username r p).commits))

/-- One element of the list `get_daily_stats` builds: the date (kept as
the day's midnight instant; the code stores its `%Y-%m-%d` rendering)
together with the day's stats. -/
structure DailyEntry where
  date : Int
  stats : CommitStats
deriving DecidableEq, Repr

/-- `get_daily_stats` (lines 85-100): for `i` in
`range(days, -1, -1)` compute the `[00:00:00, +24h)` boundary of
`now - timedelta(days=i)` and accumulate that day's stats.  The
element at position `k` corresponds to offset `i = days - k`. -/
def get_daily_stats (r : Repo) (author : String) (now : Int) (days : Nat) :
    List DailyEntry :=
  (List.range (days + 1)).map (fun k =>
    let day_start := midnightOf (now - (days - k : Nat) * 86400)
    let day_end := day_start + 86400
    { date := day_start
      stats := get_commit_stats (queryCommits r.commits author day_start day_end) })

/-! ### Repository enumerator (`get_repos_to_track`, lines 19-59) -/

/-- Splitting a character list on a separator, the semantics of
Python `str.split(sep)` (which yields `[""]` on the empty string and
keeps empty fields). -/
def splitChars (sep : Char) : List Char → List (List Char)
  | [] => [[]]
  | c :: cs =>
    let rest := splitChars sep cs
    if c = sep then [] :: rest
    else
      match rest with
      | [] => [[c]]
      | g :: gs => (c :: g) :: gs

/-- Whether a character counts as whitespace for Python `str.strip()`. -/
def isPySpace (c : Char) : Bool :=
  decide (c = ' ' ∨ c = '\t' ∨ c = '\n' ∨ c = '\r')

/-- Python `str.strip()`: drop whitespace from both ends. -/
def stripStr (s : String) : String :=
  String.mk ((((s.data.dropWhile isPySpace).reverse).dropWhile isPySpace).reverse)

/-- `REPOS_TO_TRACK.split(',')`, with each entry stripped and kept only
when non-empty and containing a `/` (lines 26-28). -/
def parseRepoList (s : String) : List String :=
  (((splitChars ',' s.data).map (fun cs => String.mk cs)).map stripStr).filter
    (fun n => n ≠ "" && n.data.contains '/')

/-- The environment `get_repos_to_track` runs against: the
`REPOS_TO_TRACK` variable, the resolver `g.get_repo` (`none` when the
lookup raises, in which case the entry is skipped with a warning), and
the repositories delivered by the two discovery queries
(`auth_user.get_repos(affiliation=...)`, then the repositories of each
organization of the target user, concatenated; a query failure
truncates the respective list). -/
structure EnumEnv where
  reposToTrack : String
  resolve : String → Option Repo
  userRepos : List Repo
  orgRepos : List Repo

/-- The discovery loops (lines 37-57): append a repository unless its
`full_name` was already seen, threading one `seen` set through both
loops. -/
def dedupBySeen (seen : List String) : List Repo → List Repo
  | [] => []
  | r :: rest =>
    if seen.contains r.full_name then dedupBySeen seen rest
    else r :: dedupBySeen (r.full_name :: seen) rest

/-- `get_repos_to_track` (lines 19-59): with a non-empty
`REPOS_TO_TRACK` each parsed entry is resolved individually and
appended (the `seen` set is populated but never consulted on this
path); otherwise the discovery sweep runs with `seen`-based
deduplication over user repositories followed by organization
repositories. -/
def get_repos_to_track (env : EnumEnv) : List Repo :=
  if env.reposToTrack ≠ "" then
    (parseRepoList env.reposToTrack).filterMap env.resolve
  else
    dedupBySeen [] (env.userRepos ++ env.orgRepos)

/-! ### Snapshot assembler (`collect_all_metrics`, lines 109-208) -/

/-- The per-repository detail record persisted for active repositories
(lines 145-153): metadata plus the per-period stats dict. -/
structure RepoDetail where
  name : String
  full_name : String
  url : String
  description : Option String
  stars : Nat
  forks : Nat
  periods : Period → CommitStats

/-- The detail record built for a repository (lines 145-160). -/
def mkDetail (now : Int) (username : String) (r : Repo) : RepoDetail :=
  { name := r.name
    full_name := r.full_name
    url := r.url
    description := r.description
    stars := r.stars
    forks := r.forks
    periods := periodStats now username r }

/-- One entry of the `top_repos` ranking (lines 194-200). -/
structure TopEntry where
  name : String
  url : String
  commits : Nat
  additions : Nat
  deletions : Nat
deriving DecidableEq, Repr

/-- One value of the global `daily` defaultdict (line 134):
commits/additions/deletions summed across repositories for one date. -/
structure DailyAgg where
  commits : Nat
  additions : Nat
  deletions : Nat
deriving DecidableEq, Repr

/-- Zero daily aggregate, the defaultdict default (line 134). -/
def zeroAgg : DailyAgg := ⟨0, 0, 0⟩

/-- Componentwise addition of summary stats, the `+=` loop of
lines 163-164. -/
def addStats (a b : CommitStats) : CommitStats :=
  ⟨a.commits + b.commits, a.additions + b.additions,
    a.deletions + b.deletions, a.files_changed + b.files_changed⟩

/-- Folding one daily series entry into the global `daily` mapping
(lines 172-176). -/
def addDailyEntry (m : Int → DailyAgg) (e : DailyEntry) : Int → DailyAgg :=
  fun d =>
    if d = e.date then
      ⟨(m d).commits + e.stats.commits, (m d).additions + e.stats.additions,
        (m d).deletions + e.stats.deletions⟩
    else m d

/-- `results['languages'][lang] += bytes_count` on a `defaultdict(int)`
(lines 180-181): upsert into an insertion-ordered association list. -/
def bumpLang (ls : List (String × Nat)) (lang : String) (bytes : Nat) :
    List (String × Nat) :=
  match ls with
  | [] => [(lang, bytes)]
  | (l, b) :: rest =>
    if l = lang then (l, b + bytes) :: rest else (l, b) :: bumpLang rest lang bytes

/-- Python dict assignment `m[k] = v` on an insertion-ordered
association list: overwrite in place if the key exists, else append. -/
def dictInsert (m : List (String × RepoDetail)) (k : String) (v : RepoDetail) :
    List (String × RepoDetail) :=
  match m with
  | [] => [(k, v)]
  | (k', v') :: rest =>
    if k' = k then (k, v) :: rest else (k', v') :: dictInsert rest k v

/-- The accumulating state of the main loop of `collect_all_metrics`
(lines 126-137): the per-period summary, the active-repository detail
dict, the daily defaultdict and the language defaultdict. -/
structure CollectState where
  summary : Period → CommitStats
  repos : List (String × RepoDetail)
  daily : Int → DailyAgg
  languages : List (String × Nat)

/-- The initial `results` aggregates (lines 126-137): zero summaries,
empty dicts. -/
def initState : CollectState :=
  { summary := fun _ => zeroStats
    repos := []
    daily := fun _ => zeroAgg
    languages := [] }

/-- The body of the per-repository loop (lines 142-185): fold every
period's stats into the summary; if the repository has activity, fold
its 90-day daily series into the global daily mapping and persist its
detail record; merge its languages unconditionally. -/
def processRepo (now : Int) (username : String) (st : CollectState) (r : Repo) :
    CollectState :=
  let active := hasActivity now username r
  { summary := fun p => addStats (st.summary p) (periodStats now username r p)
    repos :=
      if active then dictInsert st.repos r.full_name (mkDetail now username r)
      else st.repos
    daily :=
      if active then (get_daily_stats r username now 90).foldl addDailyEntry st.daily
      else st.daily
    languages := r.languages.foldl (fun ls e => bumpLang ls e.1 e.2) st.languages }

/-- The `top_repos` candidate list (lines 192-203): one entry per
repository of the detail dict whose `year` period has at least one
commit, in dict iteration order. -/
def topCandidates (reposDetail : List (String × RepoDetail)) : List TopEntry :=
  reposDetail.filterMap (fun kv =>
    if 0 < (kv.2.periods .year).commits then
      some
        { name := kv.2.full_name
          url := kv.2.url
          commits := (kv.2.periods .year).commits
          additions := (kv.2.periods .year).additions
          deletions := (kv.2.periods .year).deletions }
    else none)

/-- The ordering of `sorted(..., key=lambda x: x['additions'],
reverse=True)`: descending by additions. -/
def topRel (a b : TopEntry) : Prop := b.additions ≤ a.additions

instance : DecidableRel topRel := fun a b => Nat.decLe b.additions a.additions

instance : IsTotal TopEntry topRel := ⟨fun a b => Nat.le_total b.additions a.additions⟩

instance : IsTrans TopEntry topRel :=
  ⟨fun _ _ _ h h' => Nat.le_trans h' h⟩

/-- The final snapshot structure (`results`, lines 126-137 and
187-206). -/
structure Snapshot where
  updated_at : String
  username : String
  summary : Period → CommitStats
  repos : List (String × RepoDetail)
  daily : Int → DailyAgg
  languages : List (String × Nat)
  top_repos : List TopEntry

/-- `collect_all_metrics` (lines 109-208): fold the per-repository
loop over the tracked repositories, then rank the active repositories
with yearly commits by descending yearly additions (a stable sort,
Python's `sorted`) and keep the first 10.  The `updated_at` string is
the run timestamp's `isoformat()` rendering, taken as a parameter
alongside its numeric value `now`. -/
def collect_all_metrics (now : Int) (updatedAt username : String)
    (repos : List Repo) : Snapshot :=
  let st := repos.foldl (processRepo now username) initState
  { updated_at := updatedAt
    username := username
    summary := st.summary
    repos := st.repos
    daily := st.daily
    languages := st.languages
    top_repos := (List.insertionSort topRel (topCandidates st.repos)).take 10 }

/-! ### Dashboard renderer (`generate_dashboard.py`) -/

/-- Round-half-to-even of a rational, the semantics of Python's
built-in `round` (ties go to the even integer).  The code applies it
through binary floats; this embedding works at exact rational
precision. -/
def roundHalfEven (x : ℚ) : ℤ :=
  let f := ⌊x⌋
  if x - f < 1/2 then f
  else if 1/2 < x - f then f + 1
  else if f % 2 = 0 then f else f + 1

/-- Python `round(x, 1)`: round to one decimal place. -/
def round1 (x : ℚ) : ℚ := (roundHalfEven (10 * x) : ℚ) / 10

/-- Python `f"{q:.1f}"` for the non-negative quotients produced by
`format_number`: the value rounded to one decimal, printed with one
digit after the point. -/
def decimal1 (q : ℚ) : String :=
  let r := roundHalfEven (10 * q)
  toString (r / 10) ++ "." ++ toString (r % 10)

/-- `format_number` (`generate_dashboard.py` lines 15-20): numbers at
least one million render as `x.yM`, at least one thousand as `x.yK`,
anything else as `str(n)`. -/
def format_number (n : Int) : String :=
  if 1000000 ≤ n then decimal1 ((n : ℚ) / 1000000) ++ "M"
  else if 1000 ≤ n then decimal1 ((n : ℚ) / 1000) ++ "K"
  else toString n

/-- `total_bytes` (line 35): the sum of all language byte counts,
defaulting to 1 when the mapping is empty. -/
def totalBytes (languages : List (String × Nat)) : Nat :=
  if languages.isEmpty then 1 else (languages.map (fun e => e.2)).sum

/-- The ordering of `sorted(languages.items(), key=lambda x: x[1],
reverse=True)`: descending by byte count. -/
def langRel (a b : String × Nat) : Prop := b.2 ≤ a.2

instance : DecidableRel langRel := fun a b => Nat.decLe b.2 a.2

instance : IsTotal (String × Nat) langRel := ⟨fun a b => Nat.le_total b.2 a.2⟩

instance : IsTrans (String × Nat) langRel :=
  ⟨fun _ _ _ h h' => Nat.le_trans h' h⟩

/-- One element of `lang_data` (line 37). -/
structure LangEntry where
  name : String
  bytes : Nat
  percent : ℚ
deriving DecidableEq, Repr

/-- `lang_data` (lines 35-37): the languages sorted stably by
descending byte count, truncated to 6, each with
`percent = round(bytes / total_bytes * 100, 1)`. -/
def langData (languages : List (String × Nat)) : List LangEntry :=
  let total := totalBytes languages
  ((List.insertionSort langRel languages).take 6).map (fun l =>
    { name := l.1, bytes := l.2, percent := round1 ((l.2 : ℚ) / (total : ℚ) * 100) })

/-- The sum of the displayed language percentages. -/
def sumPercents (l : List LangEntry) : ℚ := (l.map (fun e => e.percent)).sum

/-- One summary table row of the markdown document
(`generate_readme`, lines 629-632): commits plain, additions with a
`+` prefixed, deletions with a `-` prefixed, net = additions minus
deletions, the last three through `format_number`. -/
def periodRow (label : String) (s : CommitStats) : String :=
  "| " ++ label ++ " | " ++ toString s.commits ++ " | +"
    ++ format_number (s.additions : Int) ++ " | -"
    ++ format_number (s.deletions : Int) ++ " | "
    ++ format_number ((s.additions : Int) - (s.deletions : Int)) ++ " |"

/-- Python `name.split('/')[-1]`: the final path segment. -/
def lastSegment (s : String) : String :=
  String.mk ((splitChars '/' s.data).getLastD [])

/-- One row of the top-repositories markdown table (lines 640-642). -/
def repoRow (r : TopEntry) : String :=
  "| [" ++ lastSegment r.name ++ "](" ++ r.url ++ ") | " ++ toString r.commits
    ++ " | +" ++ format_number (r.additions : Int)
    ++ " | -" ++ format_number (r.deletions : Int) ++ " |\n"

/-- `generate_readme` (lines 617-645): the header and summary table,
then one row per entry of `top_repos[:10]`, then the footer. -/
def generate_readme (metrics : Snapshot) : String :=
  let updated_at := (metrics.updated_at.take 16).replace "T" " "
  let header :=
    "# 📊 Code Metrics Dashboard\n\n> **@" ++ metrics.username ++ "** · Updated: "
      ++ updated_at ++ " UTC\n\n"
      ++ "| Period | Commits | Additions | Deletions | Net |\n"
      ++ "|--------|---------|-----------|-----------|-----|\n"
      ++ periodRow "Today" (metrics.summary .today) ++ "\n"
      ++ periodRow "Week" (metrics.summary .week) ++ "\n"
      ++ periodRow "Month" (metrics.summary .month) ++ "\n"
      ++ periodRow "Year" (metrics.summary .year) ++ "\n"
      ++ "\n## Top Repositories\n\n"
      ++ "| Repository | Commits | ++ | -- |\n|------------|---------|----|----|\n"
  let withRows := (metrics.top_repos.take 10).foldl (fun acc r => acc ++ repoRow r) header
  withRows ++ "\n---\n🔗 [View Dashboard](../../) · 🤖 Auto-updated daily\n"

/-- The concatenation of the top-repository rows (the loop of
lines 640-642). -/
def concatRows (rows : List TopEntry) : String :=
  rows.foldr (fun r acc => repoRow r ++ acc) ""

/-- Everything `generate_readme` emits before the Month row. -/
def readmeUpToMonth (metrics : Snapshot) : String :=
  "# 📊 Code Metrics Dashboard\n\n> **@" ++ metrics.username ++ "** · Updated: "
    ++ (metrics.updated_at.take 16).replace "T" " " ++ " UTC\n\n"
    ++ "| Period | Commits | Additions | Deletions | Net |\n"
    ++ "|--------|---------|-----------|-----------|-----|\n"
    ++ periodRow "Today" (metrics.summary .today) ++ "\n"
    ++ periodRow "Week" (metrics.summary .week) ++ "\n"

/-- Everything `generate_readme` emits after the Month row's
terminating newline. -/
def readmeFromYear (metrics : Snapshot) : String :=
  periodRow "Year" (metrics.summary .year) ++ "\n"
    ++ "\n## Top Repositories\n\n"
    ++ "| Repository | Commits | ++ | -- |\n|------------|---------|----|----|\n"
    ++ concatRows (metrics.top_repos.take 10)
    ++ "\n---\n🔗 [View Dashboard](../../) · 🤖 Auto-updated daily\n"

/-- The projection of a daily series entry that is folded into the
global daily mapping (lines 172-176: commits, additions, deletions). -/
def aggOf (e : DailyEntry) : DailyAgg :=
  ⟨e.stats.commits, e.stats.additions, e.stats.deletions⟩

/-- Componentwise addition of daily aggregates. -/
def addAgg (a b : DailyAgg) : DailyAgg :=
  ⟨a.commits + b.commits, a.additions + b.additions, a.deletions + b.deletions⟩

/-- The total contribution of a daily series to one date key. -/
def dailyAt (entries : List DailyEntry) (d : Int) : DailyAgg :=
  (entries.filter (fun e => decide (e.date = d))).foldr
    (fun e acc => addAgg (aggOf e) acc) zeroAgg

/-- Summing a list of daily aggregates. -/
def dailySum (l : List DailyAgg) : DailyAgg := l.foldr addAgg zeroAgg

/-- Dict lookup on the detail mapping (`full_name in results['repos']`
/ `results['repos'][full_name]`). -/
def dictFind (m : List (String × RepoDetail)) (k : String) : Option (String × RepoDetail) :=
  m.find? (fun e => e.1 == k)

/-- Dict lookup on the language mapping, defaulting to the
`defaultdict(int)` default 0. -/
def lookupBytes (ls : List (String × Nat)) (lang : String) : Nat :=
  ((ls.find? (fun e => e.1 == lang)).map (fun e => e.2)).getD 0

/-- The bytes a raw language list contributes to one language key. -/
def langBytesAt (entries : List (String × Nat)) (k : String) : Nat :=
  ((entries.filter (fun e => e.1 == k)).map (fun e => e.2)).sum

/-! ### Concrete inputs used by witnesses and counterexamples -/

/-- A repository with no commits at all (inactive for every author),
carrying some Python bytes. -/
def wRepoA : Repo := ⟨"repoa", "alice/repoa", "ua", none, 1, 0, [], [("Python", 100)]⟩

/-- A repository with one commit by `alice` shortly before the witness
run instant, carrying Python and C bytes. -/
def wRepoB : Repo :=
  ⟨"repob", "alice/repob", "ub", some "d", 2, 1,
    [⟨"alice", 999000, some (3, 1), some 2⟩], [("Python", 40), ("C", 7)]⟩

/-- A bare repository with full identifier `a/b`. -/
def cRepo : Repo := ⟨"b", "a/b", "u", none, 0, 0, [], []⟩

/-- A different repository carrying the same full identifier `a/b`. -/
def cRepo2 : Repo := ⟨"b", "a/b", "u2", none, 5, 0, [], []⟩

/-- A repository with full identifier `a/c`. -/
def cRepoOther : Repo := ⟨"c", "a/c", "u3", none, 0, 0, [], []⟩

/-- An enumerator environment whose explicit list names the same
repository twice. -/
def cexEnv : EnumEnv :=
  ⟨"a/b,a/b", fun s => if s = "a/b" then some cRepo else none, [], []⟩

/-- A discovery-mode enumerator environment whose user-repository query
delivers a duplicated full identifier. -/
def wEnvDisc : EnumEnv := ⟨"", fun _ => none, [cRepo, cRepo2, cRepoOther], []⟩

/-- A snapshot whose month summary is
`{commits: 12, additions: 340, deletions: 55, files_changed: 8}`. -/
def wSnap : Snapshot :=
  ⟨"2025-01-01T00:00:00", "alice",
    fun p => match p with
      | .month => ⟨12, 340, 55, 8⟩
      | _ => ⟨0, 0, 0, 0⟩,
    [], fun _ => zeroAgg, [], []⟩

/-! ### Properties of the commit statistics accumulator -/

/-- The commit counter of an `addCommit` fold counts exactly the
processed commits. -/
lemma foldl_addCommit_commits (l : List Commit) (s : CommitStats) :
    (l.foldl addCommit s).commits = s.commits + l.length := by
  induction l generalizing s with
  | nil => simp
  | cons c l ih => simp [ih, addCommit]; omega

/-- Every field of the accumulator grows monotonically along the fold. -/
lemma foldl_addCommit_mono (l : List Commit) (s : CommitStats) :
    s.commits ≤ (l.foldl addCommit s).commits
    ∧ s.additions ≤ (l.foldl addCommit s).additions
    ∧ s.deletions ≤ (l.foldl addCommit s).deletions
    ∧ s.files_changed ≤ (l.foldl addCommit s).files_changed := by
  induction l generalizing s with
  | nil => simp
  | cons c l ih =>
    obtain ⟨h1, h2, h3, h4⟩ := ih (addCommit s c)
    exact ⟨le_trans (Nat.le_add_right _ _) h1, le_trans (Nat.le_add_right _ _) h2,
      le_trans (Nat.le_add_right _ _) h3, le_trans (Nat.le_add_right _ _) h4⟩

/-- C7: the commit statistics accumulator starts from all-zero stats,
adds one counted commit per delivered element (zero for missing line or
file counts being built into the step), and, a failed query delivering
only a prefix of the commits, the result over any prefix is bounded by
the result over the full list in every field — the accumulator never
loses the partial stats and (being a total function) never raises. -/
theorem claim7_accumulator_partial (delivered extra : List Commit) (c : Commit) :
    get_commit_stats [] = zeroStats
    ∧ get_commit_stats (delivered ++ [c]) = addCommit (get_commit_stats delivered) c
    ∧ (get_commit_stats delivered).commits ≤ (get_commit_stats (delivered ++ extra)).commits
    ∧ (get_commit_stats delivered).additions
        ≤ (get_commit_stats (delivered ++ extra)).additions
    ∧ (get_commit_stats delivered).deletions
        ≤ (get_commit_stats (delivered ++ extra)).deletions
    ∧ (get_commit_stats delivered).files_changed
        ≤ (get_commit_stats (delivered ++ extra)).files_changed := by
  have happ : ∀ l l' : List Commit,
      get_commit_stats (l ++ l') = l'.foldl addCommit (get_commit_stats l) := by
    intro l l'
    simp [get_commit_stats, List.foldl_append]
  refine ⟨rfl, ?_, ?_, ?_, ?_, ?_⟩
  · simp [happ]
  · rw [happ]; exact (foldl_addCommit_mono extra (get_commit_stats delivered)).1
  · rw [happ]; exact (foldl_addCommit_mono extra (get_commit_stats delivered)).2.1
  · rw [happ]; exact (foldl_addCommit_mono extra (get_commit_stats delivered)).2.2.1
  · rw [happ]; exact (foldl_addCommit_mono extra (get_commit_stats delivered)).2.2.2

/-- C10: a stats record with zero commits is the all-zero record (the
other fields are only ever incremented together with a counted commit),
so folding it into a summary total leaves the total unchanged. -/
theorem claim10_zero_commits_zero_stats (delivered : List Commit) (s : CommitStats)
    (h : (get_commit_stats delivered).commits = 0) :
    get_commit_stats delivered = zeroStats ∧ addStats s (get_commit_stats delivered) = s := by
  have hlen : delivered.length = 0 := by
    have := foldl_addCommit_commits delivered zeroStats
    simp [get_commit_stats] at h
    omega
  have hnil : delivered = [] := List.length_eq_zero.mp hlen
  subst hnil
  exact ⟨rfl, by simp [addStats, get_commit_stats, zeroStats]⟩

/-- Witness for C10 at a concrete input. -/
theorem claim10_witness :
    (get_commit_stats []).commits = 0
    ∧ (get_commit_stats [] = zeroStats
        ∧ addStats ⟨1, 2, 3, 4⟩ (get_commit_stats []) = ⟨1, 2, 3, 4⟩) :=
  ⟨rfl, claim10_zero_commits_zero_stats [] ⟨1, 2, 3, 4⟩ rfl⟩

/-! ### The "today" window -/

/-- `midnightOf` through Euclidean division, for `omega`. -/
lemma midnightOf_eq (t : Int) : midnightOf t = 86400 * (t / 86400) := by
  unfold midnightOf
  rw [Int.fdiv_eq_ediv _ (by norm_num)]

/-- C4: the `today` period is the half-open window from the previous
calendar day's midnight up to the current instant: its bounds are
`[midnight(now) - 86400, now)`, an instant 60 seconds before the
current day's midnight (23:59 yesterday) lies inside it, and an
instant 60 seconds before the previous day's midnight (23:59 two days
before the run) lies outside it. -/
theorem claim4_today_window (now : Int) :
    periodWindow now .today = (midnightOf now - 86400, now)
    ∧ inWindow (periodWindow now .today).1 (periodWindow now .today).2
        (midnightOf now - 60) = true
    ∧ inWindow (periodWindow now .today).1 (periodWindow now .today).2
        (midnightOf now - 86400 - 60) = false := by
  have hsub : midnightOf (now - 86400) = midnightOf now - 86400 := by
    rw [midnightOf_eq, midnightOf_eq]
    omega
  have hle : midnightOf now ≤ now := by
    rw [midnightOf_eq]
    omega
  refine ⟨by simp [periodWindow, hsub], ?_, ?_⟩
  · simp only [periodWindow, inWindow, hsub, decide_eq_true_eq]
    omega
  · simp only [periodWindow, inWindow, hsub, decide_eq_false_iff_not]
    omega

/-! ### The daily series -/

lemma addAgg_zero (a : DailyAgg) : addAgg a zeroAgg = a := by
  simp [addAgg, zeroAgg]

lemma zero_addAgg (a : DailyAgg) : addAgg zeroAgg a = a := by
  simp [addAgg, zeroAgg]

lemma addAgg_assoc (a b c : DailyAgg) :
    addAgg (addAgg a b) c = addAgg a (addAgg b c) := by
  simp [addAgg]; omega

/-- Folding a daily series into the daily mapping adds, at every date
key, exactly the series' contribution to that key. -/
lemma foldl_addDailyEntry (entries : List DailyEntry) (m : Int → DailyAgg) (d : Int) :
    (entries.foldl addDailyEntry m) d = addAgg (m d) (dailyAt entries d) := by
  induction entries generalizing m with
  | nil => simp [dailyAt, addAgg_zero]
  | cons e es ih =>
    have hstep : (addDailyEntry m e) d =
        if e.date = d then addAgg (m d) (aggOf e) else m d := by
      by_cases h : e.date = d
      · simp [addDailyEntry, addAgg, aggOf, h]
      · have h' : ¬(d = e.date) := fun hd => h hd.symm
        simp [addDailyEntry, addAgg, aggOf, h, h']
    by_cases h : e.date = d
    · have hat : dailyAt (e :: es) d = addAgg (aggOf e) (dailyAt es d) := by
        simp [dailyAt, h]
      rw [List.foldl_cons, ih, hstep, if_pos h, hat, addAgg_assoc]
    · have hat : dailyAt (e :: es) d = dailyAt es d := by
        simp [dailyAt, h]
      rw [List.foldl_cons, ih, hstep, if_neg h, hat]

/-- The daily component of the main fold: each active repository adds
the contribution of its 90-day series, inactive repositories add
nothing. -/
lemma collect_daily_fold (now : Int) (username : String) (repos : List Repo)
    (s : CollectState) (d : Int) :
    ((repos.foldl (processRepo now username) s).daily) d
      = addAgg (s.daily d)
          (dailySum ((repos.filter (hasActivity now username)).map
            (fun r => dailyAt (get_daily_stats r username now 90) d))) := by
  induction repos generalizing s with
  | nil => simp [dailySum, addAgg_zero]
  | cons r rs ih =>
    by_cases h : hasActivity now username r
    · have hd : (processRepo now username s r).daily d
          = addAgg (s.daily d) (dailyAt (get_daily_stats r username now 90) d) := by
        simp [processRepo, h, foldl_addDailyEntry]
      have hfil : (r :: rs).filter (hasActivity now username)
          = r :: rs.filter (hasActivity now username) := by
        simp [List.filter_cons, h]
      rw [List.foldl_cons, ih, hd, addAgg_assoc, hfil, List.map_cons]
      rfl
    · have hd : (processRepo now username s r).daily = s.daily := by
        simp [processRepo, h]
      have hfil : (r :: rs).filter (hasActivity now username)
          = rs.filter (hasActivity now username) := by
        simp [List.filter_cons, h]
      rw [List.foldl_cons, ih, hd, hfil]

/-- Midnight shifts down by exactly one day under a one-day
subtraction. -/
lemma midnightOf_sub_day (t : Int) : midnightOf (t - 86400) = midnightOf t - 86400 := by
  rw [midnightOf_eq, midnightOf_eq]
  omega

/-- Midnight shifts by whole days under whole-day subtraction. -/
lemma midnightOf_sub_days (t : Int) (n : Nat) :
    midnightOf (t - (n : Int) * 86400) = midnightOf t - (n : Int) * 86400 := by
  induction n with
  | zero => simp
  | succ n ih =>
    have : t - ((n : Int) + 1) * 86400 = (t - (n : Int) * 86400) - 86400 := by ring
    push_cast
    rw [this, midnightOf_sub_day, ih]
    ring

/-- C6: for a window of `days` days the daily series has exactly
`days + 1` entries; the entry at position `k` (per the descending
`range(days, -1, -1)` loop) carries the `[00:00:00, +24h)` boundary of
`now` minus `days - k` days and that window's accumulated stats; the
dates are strictly ascending (oldest first, the final entry being the
current day); and in the assembled snapshot the daily mapping at every
date equals the summed contributions of the 90-day series of exactly
the active repositories. -/
theorem claim6_daily_series (r : Repo) (author : String) (now : Int) (days k : Nat)
    (updatedAt username : String) (repos : List Repo) (d : Int) :
    (get_daily_stats r author now days).length = days + 1
    ∧ (get_daily_stats r author now days)[k]? =
        (if k ≤ days then
          some
            { date := midnightOf (now - ((days - k : Nat) : Int) * 86400)
              stats := get_commit_stats (queryCommits r.commits author
                (midnightOf (now - ((days - k : Nat) : Int) * 86400))
                (midnightOf (now - ((days - k : Nat) : Int) * 86400) + 86400)) }
        else none)
    ∧ ((get_daily_stats r author now days).map (fun e => e.date)).Pairwise (· < ·)
    ∧ (get_daily_stats r author now days).getLast? =
        some
          { date := midnightOf now
            stats := get_commit_stats (queryCommits r.commits author
              (midnightOf now) (midnightOf now + 86400)) }
    ∧ (collect_all_metrics now updatedAt username repos).daily d =
        dailySum ((repos.filter (hasActivity now username)).map
          (fun r' => dailyAt (get_daily_stats r' username now 90) d)) := by
  refine ⟨by simp [get_daily_stats], ?_, ?_, ?_, ?_⟩
  · by_cases hk : k ≤ days
    · have hk' : k < days + 1 := Nat.lt_succ_of_le hk
      simp [get_daily_stats, List.getElem?_range hk', hk]
    · have hk' : days + 1 ≤ k := by omega
      have hnone : (List.range (days + 1))[k]? = none :=
        List.getElem?_eq_none (by simpa using hk')
      simp [get_daily_stats, hnone, hk]
  · rw [get_daily_stats, List.map_map, List.pairwise_map]
    refine (List.pairwise_lt_range (days + 1)).imp_of_mem ?_
    intro a b ha hb hab
    simp only [List.mem_range] at ha hb
    show midnightOf (now - ((days - a : Nat) : Int) * 86400)
      < midnightOf (now - ((days - b : Nat) : Int) * 86400)
    rw [midnightOf_sub_days, midnightOf_sub_days]
    omega
  · rw [get_daily_stats, List.getLast?_eq_getElem?]
    simp only [List.length_map, List.length_range, Nat.add_sub_cancel]
    simp [List.getElem?_range (Nat.lt_succ_self days)]
  · have hfold := collect_daily_fold now username repos initState d
    show ((repos.foldl (processRepo now username) initState).daily) d = _
    rw [hfold]
    simp [initState, zero_addAgg]

/-! ### Summary totals -/

lemma addStats_zero (a : CommitStats) : addStats a zeroStats = a := by
  simp [addStats, zeroStats]

/-- A stats record whose commit count is zero is all-zero. -/
lemma gcs_zero (l : List Commit) (h : (get_commit_stats l).commits = 0) :
    get_commit_stats l = zeroStats := by
  have hc := foldl_addCommit_commits l zeroStats
  simp only [get_commit_stats] at h ⊢
  have : l.length = 0 := by
    rw [hc] at h
    simpa [zeroStats] using h
  rw [List.length_eq_zero.mp this]
  rfl

/-- Every period is a key of the periods dict. -/
lemma mem_periodList (p : Period) : p ∈ periodList := by
  cases p <;> simp [periodList]

/-- An inactive repository records all-zero stats for every period. -/
lemma inactive_periodStats (now : Int) (username : String) (r : Repo) (p : Period)
    (h : hasActivity now username r = false) :
    periodStats now username r p = zeroStats := by
  apply gcs_zero
  by_contra hne
  have htrue : hasActivity now username r = true := by
    simp only [hasActivity, List.any_eq_true]
    refine ⟨p, mem_periodList p, ?_⟩
    simpa using Nat.pos_of_ne_zero hne
  simp [htrue] at h

/-- The summary component of the main fold adds every repository's
period stats. -/
lemma collect_summary_fold (now : Int) (username : String) (repos : List Repo)
    (s : CollectState) (p : Period) :
    ((repos.foldl (processRepo now username) s).summary) p
      = (repos.map (fun r => periodStats now username r p)).foldl addStats (s.summary p) := by
  induction repos generalizing s with
  | nil => rfl
  | cons r rs ih =>
    rw [List.foldl_cons, ih, List.map_cons, List.foldl_cons]
    rfl

/-- Repositories whose stats are all-zero can be dropped from an
`addStats` fold. -/
lemma foldl_addStats_filter (pred : Repo → Bool) (f : Repo → CommitStats)
    (hzero : ∀ r, pred r = false → f r = zeroStats) (rs : List Repo) (z : CommitStats) :
    ((rs.filter pred).map f).foldl addStats z = (rs.map f).foldl addStats z := by
  induction rs generalizing z with
  | nil => rfl
  | cons r rs ih =>
    by_cases h : pred r
    · rw [List.filter_cons, if_pos h, List.map_cons, List.foldl_cons, ih,
        List.map_cons, List.foldl_cons]
    · rw [List.filter_cons, if_neg (by simp [h]), ih, List.map_cons, List.foldl_cons,
        hzero r (by simpa using h), addStats_zero]

/-- C1: for every period, the assembled snapshot's summary equals the
`addStats` sum, from all-zero, of exactly the active repositories'
stats for that period — inactive repositories (all of whose period
stats are all-zero) contribute nothing to any summary total, even
though the loop folds every repository in. -/
theorem claim1_summary_totals (now : Int) (updatedAt username : String)
    (repos : List Repo) (p : Period) :
    (collect_all_metrics now updatedAt username repos).summary p
      = ((repos.filter (hasActivity now username)).map
          (fun r => periodStats now username r p)).foldl addStats zeroStats := by
  show ((repos.foldl (processRepo now username) initState).summary) p = _
  rw [collect_summary_fold,
    foldl_addStats_filter (hasActivity now username)
      (fun r => periodStats now username r p)
      (fun r hr => inactive_periodStats now username r p hr)]
  rfl

/-! ### Repository detail and language aggregation -/

lemma lookupBytes_nil (k : String) : lookupBytes [] k = 0 := rfl

lemma lookupBytes_cons (l₀ : String) (b₀ : Nat) (rest : List (String × Nat)) (k : String) :
    lookupBytes ((l₀, b₀) :: rest) k = if l₀ = k then b₀ else lookupBytes rest k := by
  by_cases h : l₀ = k
  · subst h
    simp [lookupBytes, List.find?_cons_of_pos]
  · rw [if_neg h]
    have hb : List.find? (fun e => e.1 == k) ((l₀, b₀) :: rest)
        = List.find? (fun e => e.1 == k) rest :=
      List.find?_cons_of_neg _ (by simp [h])
    simp [lookupBytes, hb]

lemma lookupBytes_bumpLang (ls : List (String × Nat)) (l k : String) (b : Nat) :
    lookupBytes (bumpLang ls l b) k = lookupBytes ls k + (if l = k then b else 0) := by
  induction ls with
  | nil =>
    by_cases h : l = k <;> simp [bumpLang, lookupBytes_cons, lookupBytes_nil, h]
  | cons e rest ih =>
    obtain ⟨l₀, b₀⟩ := e
    by_cases h0 : l₀ = l
    · subst h0
      by_cases hk : l₀ = k <;> simp [bumpLang, lookupBytes_cons, hk]
    · have hstep : bumpLang ((l₀, b₀) :: rest) l b = (l₀, b₀) :: bumpLang rest l b := by
        simp [bumpLang, h0]
      by_cases hk : l₀ = k
      · subst hk
        have hlk : ¬(l = l₀) := fun hh => h0 hh.symm
        simp [hstep, lookupBytes_cons, hlk]
      · simp [hstep, lookupBytes_cons, hk, ih]

lemma lookupBytes_langFold (entries : List (String × Nat)) (ls : List (String × Nat))
    (k : String) :
    lookupBytes (entries.foldl (fun a e => bumpLang a e.1 e.2) ls) k
      = lookupBytes ls k + langBytesAt entries k := by
  induction entries generalizing ls with
  | nil => simp [langBytesAt]
  | cons e rest ih =>
    rw [List.foldl_cons, ih, lookupBytes_bumpLang]
    by_cases h : e.1 = k
    · simp [langBytesAt, List.filter_cons, h]
      omega
    · simp [langBytesAt, List.filter_cons, h]

/-- The language component of the main fold adds every repository's
language bytes, active or not. -/
lemma collect_languages_fold (now : Int) (username : String) (rs : List Repo)
    (s : CollectState) (k : String) :
    lookupBytes ((rs.foldl (processRepo now username) s).languages) k
      = lookupBytes s.languages k + (rs.map (fun r => langBytesAt r.languages k)).sum := by
  induction rs generalizing s with
  | nil => simp
  | cons r rest ih =>
    rw [List.foldl_cons, ih]
    have : (processRepo now username s r).languages
        = r.languages.foldl (fun a e => bumpLang a e.1 e.2) s.languages := rfl
    rw [this, lookupBytes_langFold, List.map_cons, List.sum_cons]
    omega

lemma dictFind_nil (k : String) : dictFind [] k = none := rfl

lemma dictFind_cons (k₀ : String) (v₀ : RepoDetail) (rest : List (String × RepoDetail))
    (k : String) :
    dictFind ((k₀, v₀) :: rest) k = if k₀ = k then some (k₀, v₀) else dictFind rest k := by
  by_cases h : k₀ = k
  · subst h
    simp [dictFind, List.find?_cons_of_pos]
  · rw [if_neg h]
    have hb : List.find? (fun e => e.1 == k) ((k₀, v₀) :: rest)
        = List.find? (fun e => e.1 == k) rest :=
      List.find?_cons_of_neg _ (by simp [h])
    simp [dictFind, hb]

lemma dictFind_dictInsert (m : List (String × RepoDetail)) (k k' : String) (v : RepoDetail) :
    dictFind (dictInsert m k v) k' = if k' = k then some (k, v) else dictFind m k' := by
  induction m with
  | nil =>
    by_cases h : k' = k
    · subst h
      simp [dictInsert, dictFind_cons, dictFind_nil]
    · have h' : ¬(k = k') := fun hh => h hh.symm
      simp [dictInsert, dictFind_cons, dictFind_nil, h, h']
  | cons e rest ih =>
    obtain ⟨k₀, v₀⟩ := e
    by_cases h0 : k₀ = k
    · subst h0
      by_cases h : k' = k₀
      · subst h
        simp [dictInsert, dictFind_cons]
      · have h' : ¬(k₀ = k') := fun hh => h hh.symm
        simp [dictInsert, dictFind_cons, h, h']
    · have hstep : dictInsert ((k₀, v₀) :: rest) k v = (k₀, v₀) :: dictInsert rest k v := by
        simp [dictInsert, h0]
      by_cases hk : k₀ = k'
      · subst hk
        simp [hstep, dictFind_cons, h0]
      · simp [hstep, dictFind_cons, hk, ih]

/-- The detail-dict component of one loop iteration. -/
lemma processRepo_repos (now : Int) (username : String) (s : CollectState) (r : Repo) :
    (processRepo now username s r).repos
      = if hasActivity now username r then
          dictInsert s.repos r.full_name (mkDetail now username r)
        else s.repos := rfl

/-- Folding repositories none of which carries a given full name
leaves that key of the detail dict unchanged. -/
lemma collect_repos_preserve (now : Int) (username : String) (rs : List Repo)
    (s : CollectState) (k : String) (h : ∀ r' ∈ rs, r'.full_name ≠ k) :
    dictFind ((rs.foldl (processRepo now username) s).repos) k = dictFind s.repos k := by
  induction rs generalizing s with
  | nil => rfl
  | cons r₀ rest ih =>
    rw [List.foldl_cons, ih _ (fun r' hr' => h r' (List.mem_cons_of_mem _ hr'))]
    by_cases hact : hasActivity now username r₀
    · rw [processRepo_repos, if_pos hact, dictFind_dictInsert,
        if_neg (fun hh => h r₀ (List.mem_cons_self _ _) hh.symm)]
    · rw [processRepo_repos, if_neg hact]

/-- The detail dict after the main fold: under distinct full names, a
tracked repository appears exactly when it is active, and then with
exactly its detail record. -/
lemma collect_repos_find (now : Int) (username : String) (rs : List Repo)
    (s : CollectState) (r : Repo)
    (hnd : (rs.map (fun x => x.full_name)).Nodup) (hr : r ∈ rs)
    (hnot : dictFind s.repos r.full_name = none) :
    dictFind ((rs.foldl (processRepo now username) s).repos) r.full_name
      = if hasActivity now username r then some (r.full_name, mkDetail now username r)
        else none := by
  induction rs generalizing s with
  | nil => cases hr
  | cons r₀ rest ih =>
    rw [List.map_cons, List.nodup_cons] at hnd
    obtain ⟨hnotin, htail⟩ := hnd
    rcases List.mem_cons.mp hr with rfl | hmem
    · have hnone : ∀ r' ∈ rest, r'.full_name ≠ r.full_name := by
        intro r' h' heq
        exact hnotin (heq ▸ List.mem_map_of_mem (fun x => x.full_name) h')
      rw [List.foldl_cons, collect_repos_preserve now username rest _ _ hnone]
      by_cases hact : hasActivity now username r
      · rw [processRepo_repos, if_pos hact, dictFind_dictInsert, if_pos rfl, if_pos hact]
      · rw [processRepo_repos, if_neg hact, if_neg hact]
        exact hnot
    · have hne : r.full_name ≠ r₀.full_name := by
        intro heq
        exact hnotin (heq ▸ List.mem_map_of_mem (fun x => x.full_name) hmem)
      rw [List.foldl_cons]
      refine ih (processRepo now username s r₀) htail hmem ?_
      by_cases hact : hasActivity now username r₀
      · rw [processRepo_repos, if_pos hact, dictFind_dictInsert, if_neg hne]
        exact hnot
      · rw [processRepo_repos, if_neg hact]
        exact hnot

/-- C2: under distinct full identifiers, a tracked repository with zero
matching commits in all five periods has no entry in the snapshot's
detail mapping, while an active one is mapped to exactly its detail
record (name, full identifier, URL, description, star and fork counts,
and its per-period stats — the fields of `mkDetail`); and, in either
case, the snapshot's language mapping carries, at every language, the
sum of all tracked repositories' bytes for that language, the inactive
ones included. -/
theorem claim2_inactive_excluded_languages_merged (now : Int)
    (updatedAt username : String) (repos : List Repo) (r : Repo) (lang : String)
    (hnd : (repos.map (fun x => x.full_name)).Nodup) (hr : r ∈ repos) :
    (hasActivity now username r = false →
      dictFind (collect_all_metrics now updatedAt username repos).repos r.full_name = none)
    ∧ (hasActivity now username r = true →
      dictFind (collect_all_metrics now updatedAt username repos).repos r.full_name
        = some (r.full_name, mkDetail now username r))
    ∧ lookupBytes (collect_all_metrics now updatedAt username repos).languages lang
        = (repos.map (fun x => langBytesAt x.languages lang)).sum := by
  have hfind := collect_repos_find now username repos initState r hnd hr rfl
  refine ⟨fun hinact => ?_, fun hact => ?_, ?_⟩
  · show dictFind ((repos.foldl (processRepo now username) initState).repos) _ = _
    rw [hfind, if_neg (by simp [hinact])]
  · show dictFind ((repos.foldl (processRepo now username) initState).repos) _ = _
    rw [hfind, if_pos hact]
  · show lookupBytes ((repos.foldl (processRepo now username) initState).languages) _ = _
    rw [collect_languages_fold]
    simp [initState, lookupBytes_nil]

/-- Witness for C2: two repositories with one commit apiece of
different authors, so that one is active and one inactive for the
queried user, both contributing language bytes. -/
theorem claim2_witness :
    (([wRepoA, wRepoB].map (fun x => x.full_name)).Nodup ∧ wRepoB ∈ [wRepoA, wRepoB])
    ∧ ((hasActivity 1000000 "alice" wRepoB = false →
        dictFind (collect_all_metrics 1000000 "t" "alice" [wRepoA, wRepoB]).repos
          wRepoB.full_name = none)
      ∧ (hasActivity 1000000 "alice" wRepoB = true →
        dictFind (collect_all_metrics 1000000 "t" "alice" [wRepoA, wRepoB]).repos
          wRepoB.full_name
          = some (wRepoB.full_name, mkDetail 1000000 "alice" wRepoB))
      ∧ lookupBytes (collect_all_metrics 1000000 "t" "alice" [wRepoA, wRepoB]).languages
          "Python"
          = ([wRepoA, wRepoB].map (fun x => langBytesAt x.languages "Python")).sum) :=
  ⟨⟨by decide, by decide⟩,
    claim2_inactive_excluded_languages_merged 1000000 "t" "alice" [wRepoA, wRepoB] wRepoB
      "Python" (by decide) (by decide)⟩

/-! ### The top-repositories ranking -/

/-- C3: the snapshot's `top_repos` holds at most 10 entries; every
entry has at least one year-period commit and corresponds to an entry
of the active-repository detail mapping whose year period has a
positive commit count (repositories with 0 year commits are filtered
out); the list is ordered by descending year additions; a tie between
candidates keeps their original iteration order in the stably sorted
ranking; and `top_repos` is exactly the first 10 entries of that
ranking. -/
theorem claim3_top_repos (now : Int) (updatedAt username : String)
    (repos : List Repo) (a b : TopEntry) :
    (collect_all_metrics now updatedAt username repos).top_repos.length ≤ 10
    ∧ (∀ e ∈ (collect_all_metrics now updatedAt username repos).top_repos,
        1 ≤ e.commits
        ∧ ∃ kv ∈ (collect_all_metrics now updatedAt username repos).repos,
            0 < (kv.2.periods .year).commits
            ∧ e = ⟨kv.2.full_name, kv.2.url, (kv.2.periods .year).commits,
                (kv.2.periods .year).additions, (kv.2.periods .year).deletions⟩)
    ∧ (collect_all_metrics now updatedAt username repos).top_repos.Pairwise topRel
    ∧ ([a, b].Sublist
          (topCandidates (collect_all_metrics now updatedAt username repos).repos) →
        a.additions = b.additions →
        [a, b].Sublist (List.insertionSort topRel
          (topCandidates (collect_all_metrics now updatedAt username repos).repos)))
    ∧ (collect_all_metrics now updatedAt username repos).top_repos
        = (List.insertionSort topRel
            (topCandidates (collect_all_metrics now updatedAt username repos).repos)).take
            10 := by
  refine ⟨List.length_take_le 10 _, ?_, ?_, ?_, rfl⟩
  · intro e he
    have hmem : e ∈ topCandidates
        ((repos.foldl (processRepo now username) initState).repos) :=
      (List.mem_insertionSort topRel).mp (List.mem_of_mem_take he)
    obtain ⟨kv, hkv, hf⟩ := List.mem_filterMap.mp hmem
    by_cases hy : 0 < (kv.2.periods .year).commits
    · rw [if_pos hy] at hf
      obtain rfl := Option.some_injective _ hf
      exact ⟨hy, kv, hkv, hy, rfl⟩
    · rw [if_neg hy] at hf
      cases hf
  · exact (List.sorted_insertionSort topRel _).sublist (List.take_sublist _ _)
  · intro hsub heq
    exact List.pair_sublist_insertionSort (le_of_eq heq.symm) hsub

/-! ### The repository enumerator -/

/-- Counterexample to C5 as stated: with the explicit list
`REPOS_TO_TRACK = "a/b,a/b"` the enumerator resolves and appends both
entries — the `seen` set is populated but never consulted on the
explicit path — so the returned sequence holds two repositories with
the same full identifier. -/
theorem claim5_counterexample :
    ¬ (((get_repos_to_track cexEnv).map (fun r => r.full_name)).Nodup) := by
  decide

/-- The discovery-path deduplication: the output has pairwise distinct
full names, none of them in the initial `seen` set, and each output
repository is the first element of the input carrying its full name. -/
lemma dedupBySeen_spec (l : List Repo) (seen : List String) :
    ((dedupBySeen seen l).map (fun r => r.full_name)).Nodup
    ∧ ∀ r ∈ dedupBySeen seen l,
        seen.contains r.full_name = false
        ∧ l.find? (fun x => x.full_name == r.full_name) = some r := by
  induction l generalizing seen with
  | nil => exact ⟨List.nodup_nil, by simp [dedupBySeen]⟩
  | cons x rest ih =>
    by_cases hc : seen.contains x.full_name
    · have hstep : dedupBySeen seen (x :: rest) = dedupBySeen seen rest := by
        simp only [dedupBySeen]
        rw [if_pos hc]
      obtain ⟨hnd, hprop⟩ := ih seen
      refine hstep ▸ ⟨hnd, fun r hr => ?_⟩
      obtain ⟨hseen, hfind⟩ := hprop r hr
      have hne : ¬(x.full_name == r.full_name) := by
        intro hbeq
        rw [eq_of_beq hbeq] at hc
        rw [hc] at hseen
        cases hseen
      have hskip : List.find? (fun y => y.full_name == r.full_name) (x :: rest)
          = List.find? (fun y => y.full_name == r.full_name) rest :=
        List.find?_cons_of_neg _ hne
      rw [hskip]
      exact ⟨hseen, hfind⟩
    · have hstep : dedupBySeen seen (x :: rest)
          = x :: dedupBySeen (x.full_name :: seen) rest := by
        simp only [dedupBySeen]
        rw [if_neg hc]
      obtain ⟨hnd, hprop⟩ := ih (x.full_name :: seen)
      rw [hstep]
      constructor
      · rw [List.map_cons, List.nodup_cons]
        refine ⟨fun hin => ?_, hnd⟩
        obtain ⟨r', hr', heq⟩ := List.mem_map.mp hin
        have := (hprop r' hr').1
        rw [List.contains_cons, heq] at this
        simp at this
      · intro r hr
        rcases List.mem_cons.mp hr with rfl | hmem
        · have hhit : List.find? (fun y => y.full_name == r.full_name) (r :: rest)
              = some r :=
            List.find?_cons_of_pos _ (by simp)
          exact ⟨by simpa using hc, hhit⟩
        · obtain ⟨hseen, hfind⟩ := hprop r hmem
          rw [List.contains_cons] at hseen
          have hxne : ¬(x.full_name == r.full_name) := by
            intro hbeq
            rw [eq_of_beq hbeq] at hseen
            simp at hseen
          have hne2 : seen.contains r.full_name = false := by
            rcases Bool.or_eq_false_iff.mp hseen with ⟨_, h2⟩
            exact h2
          have hskip : List.find? (fun y => y.full_name == r.full_name) (x :: rest)
              = List.find? (fun y => y.full_name == r.full_name) rest :=
            List.find?_cons_of_neg _ hxne
          rw [hskip]
          exact ⟨hne2, hfind⟩

/-- C5 amended: in the discovery configuration (empty explicit list)
the enumerator's output has no two repositories with the same full
identifier, and each returned repository is the first occurrence of
its full identifier in the delivered user-repositories followed by
organization-repositories sequence (first occurrence wins); in the
explicit-list configuration entries are resolved and appended
individually, without deduplication. -/
theorem claim5_amended (env : EnumEnv) (r : Repo)
    (hdisc : env.reposToTrack = "") (hr : r ∈ get_repos_to_track env) :
    ((get_repos_to_track env).map (fun x => x.full_name)).Nodup
    ∧ (env.userRepos ++ env.orgRepos).find?
        (fun x => x.full_name == r.full_name) = some r := by
  have hbranch : get_repos_to_track env
      = dedupBySeen [] (env.userRepos ++ env.orgRepos) := by
    simp [get_repos_to_track, hdisc]
  obtain ⟨hnd, hprop⟩ := dedupBySeen_spec (env.userRepos ++ env.orgRepos) []
  rw [hbranch] at hr ⊢
  exact ⟨hnd, (hprop r hr).2⟩

/-- Witness for the amended C5: a discovery sweep delivering the full
identifier `a/b` twice keeps only its first occurrence. -/
theorem claim5_witness :
    (wEnvDisc.reposToTrack = "" ∧ cRepoOther ∈ get_repos_to_track wEnvDisc)
    ∧ (((get_repos_to_track wEnvDisc).map (fun x => x.full_name)).Nodup
      ∧ (wEnvDisc.userRepos ++ wEnvDisc.orgRepos).find?
          (fun x => x.full_name == cRepoOther.full_name) = some cRepoOther) :=
  ⟨⟨rfl, by decide⟩, claim5_amended wEnvDisc cRepoOther rfl (by decide)⟩

/-! ### Language percentages -/

lemma langData_eq (ls : List (String × Nat)) :
    langData ls = ((List.insertionSort langRel ls).take 6).map
      (fun l => ⟨l.1, l.2, round1 ((l.2 : ℚ) / ((totalBytes ls : Nat) : ℚ) * 100)⟩) := rfl

lemma roundHalfEven_intCast (n : ℤ) : roundHalfEven ((n : ℤ) : ℚ) = n := by
  simp only [roundHalfEven, Int.floor_intCast]
  norm_num

lemma roundHalfEven_eq_add_one (x : ℚ) (n : ℤ) (hf : ⌊x⌋ = n) (hgt : 1/2 < x - n) :
    roundHalfEven x = n + 1 := by
  simp only [roundHalfEven, hf]
  rw [if_neg (by linarith), if_pos hgt]

lemma roundHalfEven_le (x : ℚ) : (roundHalfEven x : ℚ) ≤ x + 1/2 := by
  have h1 := Int.floor_le x
  have h2 := Int.lt_floor_add_one x
  simp only [roundHalfEven]
  split_ifs <;> push_cast <;> linarith

lemma round1_le (x : ℚ) : round1 x ≤ x + 1/20 := by
  have h := roundHalfEven_le (10 * x)
  rw [round1]
  linarith

lemma round1_intCast (n : ℤ) : round1 ((n : ℤ) : ℚ) = n := by
  have h10 : (10 : ℚ) * ((n : ℤ) : ℚ) = ((10 * n : ℤ) : ℚ) := by push_cast; ring
  rw [round1, h10, roundHalfEven_intCast]
  push_cast
  ring

lemma round1_140_3 : round1 (140/3 : ℚ) = 467/10 := by
  have h10 : (10 : ℚ) * (140/3) = 1400/3 := by norm_num
  have hf : ⌊(1400/3 : ℚ)⌋ = 466 := by
    rw [Int.floor_eq_iff]
    norm_num
  rw [round1, h10, roundHalfEven_eq_add_one _ 466 hf (by push_cast; norm_num)]
  norm_num

lemma round1_20_3 : round1 (20/3 : ℚ) = 67/10 := by
  have h10 : (10 : ℚ) * (20/3) = 200/3 := by norm_num
  have hf : ⌊(200/3 : ℚ)⌋ = 66 := by
    rw [Int.floor_eq_iff]
    norm_num
  rw [round1, h10, roundHalfEven_eq_add_one _ 66 hf (by push_cast; norm_num)]
  norm_num

/-- The percentages of `{A: 7, B: 7, C: 1}`: each true share rounds
up, so the displayed percentages are 46.7, 46.7 and 6.7. -/
lemma langData_7_7_1 :
    langData [("A", 7), ("B", 7), ("C", 1)]
      = [⟨"A", 7, 467/10⟩, ⟨"B", 7, 467/10⟩, ⟨"C", 1, 67/10⟩] := by
  have hsort : (List.insertionSort langRel [("A", 7), ("B", 7), ("C", 1)]).take 6
      = [("A", 7), ("B", 7), ("C", 1)] := by decide
  have hT : ((totalBytes [("A", 7), ("B", 7), ("C", 1)] : Nat) : ℚ) = 15 := by
    norm_num [totalBytes]
  rw [langData_eq, hsort]
  simp only [List.map_cons, List.map_nil, hT]
  have h7 : ((7 : Nat) : ℚ) / 15 * 100 = 140/3 := by norm_num
  have h1 : ((1 : Nat) : ℚ) / 15 * 100 = 20/3 := by norm_num
  rw [h7, h1, round1_140_3, round1_20_3]

/-- Counterexample to the C8 conjunct "the displayed percentages sum to
at most 100": for the mapping `{A: 7, B: 7, C: 1}` the displayed
percentages are 46.7 + 46.7 + 6.7 = 100.1 > 100. -/
theorem claim8_counterexample :
    ¬ (sumPercents (langData [("A", 7), ("B", 7), ("C", 1)]) ≤ 100) := by
  rw [langData_7_7_1]
  simp only [sumPercents, List.map_cons, List.map_nil, List.sum_cons, List.sum_nil]
  norm_num

lemma sum_map_round1_le (l : List ℚ) :
    (l.map round1).sum ≤ l.sum + l.length * (1/20) := by
  induction l with
  | nil => simp
  | cons x xs ih =>
    simp only [List.map_cons, List.sum_cons, List.length_cons]
    have h := round1_le x
    push_cast
    linarith

/-- C8 amended: the top-language list consists of the (at most) six
languages with the largest byte counts, each entry carrying
`percent = round(bytes / total_bytes * 100, 1)`; the displayed
percentages sum to at most 100.3 (the six roundings can add up to 0.05
each above the true shares, whose sum is at most 100 — the bound 100
of the original claim fails, see the counterexample); and the mapping
`{Python: 800, JavaScript: 200}` yields exactly
`[{name: Python, percent: 80.0}, {name: JavaScript, percent: 20.0}]`. -/
theorem claim8_amended (ls : List (String × Nat)) (hT : 0 < totalBytes ls) :
    (langData ls).length = min 6 ls.length
    ∧ (∀ e ∈ langData ls, (e.name, e.bytes) ∈ ls
        ∧ e.percent = round1 ((e.bytes : ℚ) / ((totalBytes ls : Nat) : ℚ) * 100))
    ∧ (∀ x ∈ ls, (∀ e ∈ langData ls, ¬(x.1 = e.name ∧ x.2 = e.bytes)) →
        ∀ e ∈ langData ls, x.2 ≤ e.bytes)
    ∧ sumPercents (langData ls) ≤ 100 + 3/10
    ∧ langData [("Python", 800), ("JavaScript", 200)]
        = [⟨"Python", 800, 80⟩, ⟨"JavaScript", 200, 20⟩] := by
  refine ⟨?_, ?_, ?_, ?_, ?_⟩
  · rw [langData_eq]
    simp [List.length_take, List.length_insertionSort]
  · intro e he
    rw [langData_eq] at he
    obtain ⟨l, hl, rfl⟩ := List.mem_map.mp he
    have hmem : l ∈ ls :=
      (List.mem_insertionSort langRel).mp (List.mem_of_mem_take hl)
    exact ⟨hmem, rfl⟩
  · intro x hx hnot e he
    have hxs : x ∈ List.insertionSort langRel ls :=
      (List.mem_insertionSort langRel).mpr hx
    rw [← List.take_append_drop 6 (List.insertionSort langRel ls)] at hxs
    rcases List.mem_append.mp hxs with htake | hdrop
    · exfalso
      refine hnot ⟨x.1, x.2, round1 ((x.2 : ℚ) / ((totalBytes ls : Nat) : ℚ) * 100)⟩ ?_ ⟨rfl, rfl⟩
      rw [langData_eq]
      exact List.mem_map.mpr ⟨x, htake, rfl⟩
    · rw [langData_eq] at he
      obtain ⟨l, hl, rfl⟩ := List.mem_map.mp he
      have hsorted : (List.insertionSort langRel ls).Pairwise langRel :=
        List.sorted_insertionSort langRel ls
      rw [← List.take_append_drop 6 (List.insertionSort langRel ls)] at hsorted
      have hcross := (List.pairwise_append.mp hsorted).2.2
      exact hcross l hl x hdrop
  · rw [sumPercents, langData_eq, List.map_map]
    have hform : ((List.insertionSort langRel ls).take 6).map
        ((fun e : LangEntry => e.percent) ∘
          (fun l => (⟨l.1, l.2, round1 ((l.2 : ℚ) / ((totalBytes ls : Nat) : ℚ) * 100)⟩ :
            LangEntry)))
        = (((List.insertionSort langRel ls).take 6).map
            (fun l => ((l.2 : ℚ) / ((totalBytes ls : Nat) : ℚ) * 100))).map round1 := by
      rw [List.map_map]
      rfl
    rw [hform]
    have hlen : (((List.insertionSort langRel ls).take 6).map
        (fun l => ((l.2 : ℚ) / ((totalBytes ls : Nat) : ℚ) * 100))).length ≤ 6 := by
      simp
    have hub := sum_map_round1_le (((List.insertionSort langRel ls).take 6).map
      (fun l => ((l.2 : ℚ) / ((totalBytes ls : Nat) : ℚ) * 100)))
    have hsum100 : (((List.insertionSort langRel ls).take 6).map
        (fun l => ((l.2 : ℚ) / ((totalBytes ls : Nat) : ℚ) * 100))).sum ≤ 100 := by
      have hTQ : (0 : ℚ) < ((totalBytes ls : Nat) : ℚ) := by
        exact_mod_cast hT
      have hNat : (((List.insertionSort langRel ls).take 6).map (fun e => e.2)).sum
          ≤ totalBytes ls := by
        by_cases hnil : ls = []
        · subst hnil
          simp [totalBytes]
        · have h1 : (((List.insertionSort langRel ls).map (fun e => e.2)).take 6).sum
              ≤ ((List.insertionSort langRel ls).map (fun e => e.2)).sum := by
            have := List.sum_take_add_sum_drop
              ((List.insertionSort langRel ls).map (fun e => e.2)) 6
            omega
          have h2 : ((List.insertionSort langRel ls).map (fun e => e.2)).sum
              = (ls.map (fun e => e.2)).sum :=
            ((List.perm_insertionSort langRel ls).map (fun e => e.2)).sum_eq
          have h3 : totalBytes ls = (ls.map (fun e => e.2)).sum := by
            rw [totalBytes, if_neg (by simpa using hnil)]
          rw [List.map_take] at *
          omega
      have hcast : (((List.insertionSort langRel ls).take 6).map
          (fun e => ((e.2 : Nat) : ℚ))).sum ≤ ((totalBytes ls : Nat) : ℚ) := by
        have h := Nat.cast_list_sum (β := ℚ)
          (((List.insertionSort langRel ls).take 6).map (fun e => e.2))
        rw [List.map_map] at h
        have hfun : ((List.insertionSort langRel ls).take 6).map
            (Nat.cast ∘ fun e : String × Nat => e.2)
            = ((List.insertionSort langRel ls).take 6).map
              (fun e => ((e.2 : Nat) : ℚ)) := rfl
        rw [hfun] at h
        rw [← h]
        exact_mod_cast hNat
      have hfact : ((List.insertionSort langRel ls).take 6).map
          (fun l => ((l.2 : ℚ) / ((totalBytes ls : Nat) : ℚ) * 100))
          = ((List.insertionSort langRel ls).take 6).map
            (fun l => ((l.2 : ℚ)) * (100 / ((totalBytes ls : Nat) : ℚ))) :=
        List.map_congr_left (fun a _ => by ring)
      rw [hfact, List.sum_map_mul_right]
      calc (((List.insertionSort langRel ls).take 6).map (fun e => ((e.2 : Nat) : ℚ))).sum
            * (100 / ((totalBytes ls : Nat) : ℚ))
          ≤ ((totalBytes ls : Nat) : ℚ) * (100 / ((totalBytes ls : Nat) : ℚ)) := by
            apply mul_le_mul_of_nonneg_right hcast
            positivity
        _ = 100 := by field_simp
    calc (((((List.insertionSort langRel ls).take 6).map
            (fun l => ((l.2 : ℚ) / ((totalBytes ls : Nat) : ℚ) * 100)))).map round1).sum
        ≤ (((List.insertionSort langRel ls).take 6).map
            (fun l => ((l.2 : ℚ) / ((totalBytes ls : Nat) : ℚ) * 100))).sum
          + (((List.insertionSort langRel ls).take 6).map
              (fun l => ((l.2 : ℚ) / ((totalBytes ls : Nat) : ℚ) * 100))).length
            * (1/20) := hub
      _ ≤ 100 + 6 * (1/20) := by
          have : ((((List.insertionSort langRel ls).take 6).map
              (fun l => ((l.2 : ℚ) / ((totalBytes ls : Nat) : ℚ) * 100))).length : ℚ)
              ≤ 6 := by
            exact_mod_cast hlen
          nlinarith [hsum100]
      _ = 100 + 3/10 := by norm_num
  · have hsort : (List.insertionSort langRel [("Python", 800), ("JavaScript", 200)]).take 6
        = [("Python", 800), ("JavaScript", 200)] := by decide
    have hTex : ((totalBytes [("Python", 800), ("JavaScript", 200)] : Nat) : ℚ) = 1000 := by
      norm_num [totalBytes]
    rw [langData_eq, hsort]
    simp only [List.map_cons, List.map_nil, hTex]
    have h800 : ((800 : Nat) : ℚ) / 1000 * 100 = ((80 : ℤ) : ℚ) := by norm_num
    have h200 : ((200 : Nat) : ℚ) / 1000 * 100 = ((20 : ℤ) : ℚ) := by norm_num
    rw [h800, h200, round1_intCast, round1_intCast]
    norm_num

/-- Witness for the amended C8 at the spec's own example mapping. -/
theorem claim8_witness :
    0 < totalBytes [("Python", 800), ("JavaScript", 200)]
    ∧ ((langData [("Python", 800), ("JavaScript", 200)]).length
          = min 6 ([("Python", 800), ("JavaScript", 200)] : List (String × Nat)).length
      ∧ (∀ e ∈ langData [("Python", 800), ("JavaScript", 200)],
          (e.name, e.bytes) ∈ ([("Python", 800), ("JavaScript", 200)] : List (String × Nat))
          ∧ e.percent = round1 ((e.bytes : ℚ)
              / ((totalBytes [("Python", 800), ("JavaScript", 200)] : Nat) : ℚ) * 100))
      ∧ (∀ x ∈ ([("Python", 800), ("JavaScript", 200)] : List (String × Nat)),
          (∀ e ∈ langData [("Python", 800), ("JavaScript", 200)],
            ¬(x.1 = e.name ∧ x.2 = e.bytes)) →
          ∀ e ∈ langData [("Python", 800), ("JavaScript", 200)], x.2 ≤ e.bytes)
      ∧ sumPercents (langData [("Python", 800), ("JavaScript", 200)]) ≤ 100 + 3/10
      ∧ langData [("Python", 800), ("JavaScript", 200)]
          = [⟨"Python", 800, 80⟩, ⟨"JavaScript", 200, 20⟩]) :=
  ⟨by decide, claim8_amended [("Python", 800), ("JavaScript", 200)] (by decide)⟩

/-! ### The markdown summary table -/

/-- The row loop of `generate_readme` appends exactly the
concatenation of the rows. -/
lemma foldl_append_rows (rows : List TopEntry) (init : String) :
    rows.foldl (fun acc r => acc ++ repoRow r) init = init ++ concatRows rows := by
  induction rows generalizing init with
  | nil => simp [concatRows]
  | cons r rs ih =>
    rw [List.foldl_cons, ih]
    show (init ++ repoRow r) ++ concatRows rs = init ++ (repoRow r ++ concatRows rs)
    rw [String.append_assoc]

/-- C9: for a snapshot whose month summary is
`{commits: 12, additions: 340, deletions: 55, files_changed: 8}`, the
generated markdown decomposes around a Month row whose four stat cells
literally read `| 12 | +340 | -55 | 285 |` after the `| Month ` label:
commits plain, additions with `+`, deletions with `-`, and
net = additions − deletions = 285, each rendered by the K/M number
formatter (which below 1000 prints the plain decimal). -/
theorem claim9_month_row (metrics : Snapshot)
    (h : metrics.summary .month = ⟨12, 340, 55, 8⟩) :
    generate_readme metrics
      = readmeUpToMonth metrics
        ++ ("| Month " ++ "| 12 | +340 | -55 | 285 |" ++ "\n")
        ++ readmeFromYear metrics := by
  have hrow : periodRow "Month" (metrics.summary .month)
      = "| Month " ++ "| 12 | +340 | -55 | 285 |" := by
    rw [h]
    decide
  simp only [generate_readme, readmeUpToMonth, readmeFromYear]
  rw [foldl_append_rows, hrow]
  simp only [String.append_assoc]

/-- Witness for C9 at a concrete snapshot. -/
theorem claim9_witness :
    wSnap.summary .month = ⟨12, 340, 55, 8⟩
    ∧ generate_readme wSnap
        = readmeUpToMonth wSnap
          ++ ("| Month " ++ "| 12 | +340 | -55 | 285 |" ++ "\n")
          ++ readmeFromYear wSnap :=
  ⟨rfl, claim9_month_row wSnap rfl⟩

end GhMetrics

